import Mathlib

/-!
Shallow embedding of the diff-hunk chunking pipeline of the
IBMCodeCompletion repository (the `parse_patch_hunks`, `merge_close_hunks`
and `add_editable_region_markers` functions, which appear verbatim in both
`src/extract_dataset.py` and `src/local_extract.py`), together with
theorems settling the specification claims about them.

Machine integers are modelled as `Nat`; every place where Python's signed
integer arithmetic could differ from `Nat` arithmetic (the gap comparison
in the merger and the `max(1, ...)` clamp in the materializer) is noted at
the definition and the model is chosen so the two agree on the values that
can occur.
-/

namespace IBMCC

/-! ### Hunk parser (`parse_patch_hunks`)

The Python code scans each line of the patch; a line that starts with
`@@` is run through `re.search(r'@@ -(\d+),?(\d*) \+(\d+),?(\d*) @@', line)`
and, on a match, contributes the hunk
`(old_start, old_start + old_count)` with `old_count` defaulting to `1`
when capture group 2 is empty.

The regex is embedded as a deterministic matcher over `List Char`.  For
this particular pattern, Python's leftmost, greedy, backtracking search is
equivalent to maximal-munch with no backtracking: each `(\d+)`/`(\d*)`
group is followed by a non-digit literal, so giving digits back to a
group can never turn a failing continuation into a succeeding one, and
`,?` is followed by `(\d*) `, so skipping a present comma always fails.
Digits are modelled as ASCII digits. -/

/-- Maximal run of leading digits of a character list, with the rest. -/
def takeDigits : List Char → List Char × List Char
  | [] => ([], [])
  | c :: cs =>
    if c.isDigit then
      let p := takeDigits cs
      (c :: p.1, p.2)
    else ([], c :: cs)

/-- Value of a decimal digit string, as Python's `int` computes it. -/
def digitsVal (ds : List Char) : Nat :=
  ds.foldl (fun a c => 10 * a + (c.toNat - 48)) 0

/-- Skip one leading comma if present (the regex piece `,?`). -/
def skipComma (l : List Char) : List Char :=
  match l with
  | [] => []
  | c :: t => if c = ',' then t else c :: t

/-- Match `@@ -(\d+),?(\d*) \+(\d+),?(\d*) @@` at the head of the list,
returning the old-range captures: the old start value and the old count
value (`none` when capture group 2 is empty, as Python treats `''` as
falsy and defaults the count). -/
def matchRange (l : List Char) : Option (Nat × Option Nat) :=
  match l with
  | '@' :: '@' :: ' ' :: '-' :: r0 =>
    let p1 := takeDigits r0
    if p1.1.isEmpty then none else
    let p2 := takeDigits (skipComma p1.2)
    match p2.2 with
    | ' ' :: '+' :: r4 =>
      let p3 := takeDigits r4
      if p3.1.isEmpty then none else
      let p4 := takeDigits (skipComma p3.2)
      match p4.2 with
      | ' ' :: '@' :: '@' :: _ =>
        some (digitsVal p1.1, if p2.1.isEmpty then none else some (digitsVal p2.1))
      | _ => none
    | _ => none
  | _ => none

/-- `re.search`: try the pattern at every position, leftmost match wins. -/
def searchRange : List Char → Option (Nat × Option Nat)
  | [] => none
  | c :: cs =>
    match matchRange (c :: cs) with
    | some g => some g
    | none => searchRange cs

/-- Python's `line.startswith('@@')` test followed by the regex search:
the old-range captures of a line, or `none` when the line is ignored. -/
def lineGroups (l : List Char) : Option (Nat × Option Nat) :=
  match l with
  | '@' :: '@' :: rest => searchRange ('@' :: '@' :: rest)
  | _ => none

/-- One line of the patch: a successful parse contributes the hunk
`(old_start, old_start + old_count)`, `old_count` defaulting to 1. -/
def lineToHunkL (l : List Char) : Option (Nat × Nat) :=
  match lineGroups l with
  | some (s, oc) => some (s, s + oc.getD 1)
  | none => none

def lineToHunk (line : String) : Option (Nat × Nat) :=
  lineToHunkL line.toList

/-- Python's `str.split('\n')` on the underlying character list:
`""` splits to `[""]`, separators are never dropped. -/
def splitNl : List Char → List (List Char)
  | [] => [[]]
  | c :: rest =>
    if c = '\n' then [] :: splitNl rest
    else
      match splitNl rest with
      | [] => [[c]]
      | l :: ls => (c :: l) :: ls

/-- `patch.split('\n')` as a list of lines. -/
def pySplitLines (s : String) : List String :=
  (splitNl s.toList).map fun l => String.mk l

/-- `parse_patch_hunks(patch)`: `None` or `''` yield `[]`; otherwise each
line is tested in order and contributes at most one hunk. -/
def parse_patch_hunks (patch : Option String) : List (Nat × Nat) :=
  match patch with
  | none => []
  | some p => if p.isEmpty then [] else (pySplitLines p).filterMap lineToHunk

/-! ### Hunk merger (`merge_close_hunks`)

The Python code sorts the hunks with `sorted(hunks, key=lambda x: x[0])`
— a stable sort by the first component — then performs a single linear
pass, merging the current hunk into the last open region when
`current[0] - last[1] <= max_gap` (Python signed arithmetic; since all
values are non-negative naturals this is exactly `current.1 ≤ last.2 + g`
over `Nat`).

Python's `sorted` is specified to be the stable sort, and the stable sort
by a key is a unique function of its input, so it is embedded here as the
stable insertion sort by the first component (an element is inserted in
front of the first strictly greater key, hence after all equal keys that
originate earlier in the list). -/

/-- Comparison underlying `key=lambda x: x[0]`. -/
def leStart (a b : Nat × Nat) : Prop := a.1 ≤ b.1

instance : DecidableRel leStart := fun a b => Nat.decLe a.1 b.1

instance : IsTotal (Nat × Nat) leStart := ⟨fun a b => Nat.le_total a.1 b.1⟩

instance : IsTrans (Nat × Nat) leStart := ⟨fun _ _ _ => Nat.le_trans⟩

/-- `sorted(hunks, key=lambda x: x[0])`: the stable sort by `start`
(insertion sort inserting in front of the first strictly greater key is
the stable sort, which Python's `sorted` is specified to be). -/
def sortHunks (hunks : List (Nat × Nat)) : List (Nat × Nat) :=
  hunks.insertionSort leStart

/-- The merging pass.  `last` is the Python `merged[-1]`, the currently
open region; earlier regions are frozen once emitted.  The guard
`c.1 ≤ last.2 + g` is Python's `current[0] - last[1] <= max_gap` moved to
`Nat` (equivalent for non-negative values). -/
def mergeLoop (g : Nat) (last : Nat × Nat) : List (Nat × Nat) → List (Nat × Nat)
  | [] => [last]
  | c :: rest =>
    if c.1 ≤ last.2 + g then mergeLoop g (last.1, max last.2 c.2) rest
    else last :: mergeLoop g c rest

/-- `merge_close_hunks(hunks, max_gap)`. -/
def merge_close_hunks (hunks : List (Nat × Nat)) (max_gap : Nat) : List (Nat × Nat) :=
  match sortHunks hunks with
  | [] => []
  | h :: t => mergeLoop max_gap h t

/-! ### Region materializer (`add_editable_region_markers`)

The file record is modelled by the three fields the function reads
(`patch`, `before_content`, `after_content`, each `None`-able), and the
chunk record by the seven fields the function writes.  Python truthiness
of an optional string (`not patch`) is `truthy`.  The `max(1, hunk_start
- context_before)` clamp is computed by Python over signed integers;
`Nat` subtraction truncates negatives to `0`, and `max 1 0 = 1` agrees
with `max(1, negative) = 1`, so the `Nat` form agrees with Python. -/

structure FileRecord where
  patch : Option String
  before_content : Option String
  after_content : Option String
deriving DecidableEq, Repr

structure ChunkRecord where
  chunk_id : Nat
  total_chunks_in_file : Nat
  is_multi_chunk_file : Bool
  editable_region_start : Option Nat
  editable_region_end : Option Nat
  model_input_text : Option String
  model_target_text : Option String
deriving DecidableEq, Repr

/-- Python truthiness of an optional string: `None` and `''` are falsy. -/
def truthy : Option String → Bool
  | none => false
  | some s => !s.isEmpty

def startMarker : String := "<|editable_region_start|>"

def endMarker : String := "<|editable_region_end|>"

/-- The marker-insertion loop
`for i, line in enumerate(before_lines, start=1)`: the start marker is
appended just before the line numbered `rs`, the end marker just after
the line numbered `re`. -/
def markLoop (rs re : Nat) : Nat → List String → List String
  | _, [] => []
  | i, line :: rest =>
    (if i = rs then [startMarker] else []) ++ line ::
      ((if i = re then [endMarker] else []) ++ markLoop rs re (i + 1) rest)

/-- `'\n'.join(lines)`. -/
def joinNl : List String → String
  | [] => ""
  | [s] => s
  | s :: rest => s ++ "\n" ++ joinNl rest

/-- Python's `after_lines[region_start-1:region_end]` for
`1 ≤ region_start` and `region_end ≤ len(after_lines)`: drop then take
(`take` clamps exactly as a Python slice does). -/
def pySlice (l : List String) (a b : Nat) : List String :=
  (l.drop a).take (b - a)

/-- The body of the per-region loop: one `ChunkRecord` per merged
region, copying the loop of the source line by line. -/
def buildChunk (before_lines after_lines : List String) (context_before context_after : Nat)
    (idx total : Nat) (hk : Nat × Nat) : ChunkRecord :=
  let region_start := max 1 (hk.1 - context_before)
  let region_end := min before_lines.length (hk.2 + context_after)
  let marked := markLoop region_start region_end 1 before_lines
  let tgt :=
    if region_start ≤ after_lines.length ∧ region_end ≤ after_lines.length then
      some (joinNl (pySlice after_lines (region_start - 1) region_end))
    else none
  { chunk_id := idx
    total_chunks_in_file := total
    is_multi_chunk_file := decide (1 < total)
    editable_region_start := some region_start
    editable_region_end := some region_end
    model_input_text := some (joinNl marked)
    model_target_text := tgt }

/-- `for chunk_idx, (hunk_start, hunk_end) in enumerate(merged_hunks)`. -/
def chunksFrom (bl al : List String) (cb ca total : Nat) : Nat → List (Nat × Nat) → List ChunkRecord
  | _, [] => []
  | idx, hk :: rest => buildChunk bl al cb ca idx total hk :: chunksFrom bl al cb ca total (idx + 1) rest

/-- The degenerate "not chunkable" record returned by both
short-circuits of the source: the original record with `chunk_id = 0`,
`total_chunks_in_file = 1`, markers and texts reset to `None` (the
record's `editable_region_start`/`end` fields were initialised to
`None` at record construction and are left untouched there). -/
def degenChunk : ChunkRecord :=
  { chunk_id := 0
    total_chunks_in_file := 1
    is_multi_chunk_file := false
    editable_region_start := none
    editable_region_end := none
    model_input_text := none
    model_target_text := none }

/-- `add_editable_region_markers(file_record, context_before,
context_after, max_gap)`. -/
def add_editable_region_markers (r : FileRecord) (context_before context_after max_gap : Nat) :
    List ChunkRecord :=
  if truthy r.patch = false ∨ truthy r.before_content = false then [degenChunk]
  else
    let hunks := parse_patch_hunks r.patch
    if hunks.isEmpty then [degenChunk]
    else
      let merged := merge_close_hunks hunks max_gap
      let before_lines := pySplitLines (r.before_content.getD "")
      let after_lines :=
        if truthy r.after_content then pySplitLines (r.after_content.getD "") else before_lines
      chunksFrom before_lines after_lines context_before context_after merged.length 0 merged

/-- Line coverage of a list of half-open ranges, as a decidable
membership test: `x` is covered when some range contains it. -/
def covers (l : List (Nat × Nat)) (x : Nat) : Bool :=
  l.any fun h => decide (h.1 ≤ x ∧ x < h.2)

/-- The optional `,count` piece of a hunk header. -/
def optComma : Option (List Char) → List Char
  | none => []
  | some l => ',' :: l

/-- A hunk-header line of the exact unified-diff range shape
`@@ -ds[,cs] +ns[,ms] @@suffix` as a character list. -/
def mkHeaderL (ds : List Char) (cs : Option (List Char)) (ns : List Char)
    (ms : Option (List Char)) (tail : List Char) : List Char :=
  '@' :: '@' :: ' ' :: '-' ::
    (ds ++ optComma cs ++ (' ' :: '+' ::
      (ns ++ optComma ms ++ (' ' :: '@' :: '@' :: tail))))

/-- The value Python's `int` gives the old-count capture, with the
default of 1 when the capture is absent. -/
def oldCountVal : Option (List Char) → Nat
  | none => 1
  | some l => digitsVal l

/-- A predicate bundling "non-empty string of digits". -/
def digitStr (l : List Char) : Prop := l ≠ [] ∧ ∀ c ∈ l, c.isDigit = true

instance : DecidablePred digitStr :=
  fun l => decidable_of_iff (l ≠ [] ∧ ∀ c ∈ l, c.isDigit = true) Iff.rfl

/-- Decidable validity of one line: if it matches the hunk-header
pattern at all, its old start is positive and its explicit old count, if
any, is positive.  (Unified-diff headers for deletions at the top of a
file or pure insertions violate this: `@@ -0,0 ...`.) -/
def headerOK (l : List Char) : Bool :=
  match lineGroups l with
  | none => true
  | some (v, oc) =>
    decide (1 ≤ v) && (match oc with | none => true | some c => decide (1 ≤ c))

/-- Occurrence count of a pattern inside a character list: the number
of positions where the pattern is a prefix of the remaining suffix. -/
def countOcc (pat : List Char) : List Char → Nat
  | [] => if pat.isPrefixOf [] then 1 else 0
  | c :: t => (if pat.isPrefixOf (c :: t) then 1 else 0) + countOcc pat t

/-- The condition under which the materializer short-circuits: falsy
patch, falsy before-content, or a patch that parses to zero hunks. -/
def shortCircuit (r : FileRecord) : Bool :=
  !truthy r.patch || !truthy r.before_content || (parse_patch_hunks r.patch).isEmpty

/-- A sample record with an absent patch, for exercising the
short-circuit path. -/
def recNoPatch : FileRecord := FileRecord.mk none (some "a\nb") (some "a")

/-- A sample chunkable record with two far-apart hunks. -/
def recTwoHunks : FileRecord :=
  FileRecord.mk (some "@@ -1,2 +1,2 @@\n@@ -30,2 +30,2 @@") (some "a\nb\nc") (some "a")

/-- A record whose hunk starts beyond the end of the before-file: the
clamped `region_start` (9) exceeds the line count (3). -/
def recFarHunk : FileRecord :=
  FileRecord.mk (some "@@ -10,2 +10,2 @@") (some "a\nb\nc") (some "a\nb\nc")

/-! ### Concrete sanity checks of the embedding -/

example : lineToHunk "@@ -12,3 +12,4 @@" = some (12, 15) := by decide
example : lineToHunk "@@ -7 +7,2 @@ def foo():" = some (7, 8) := by decide
example : lineToHunk "@@ -0,0 +1 @@" = some (0, 0) := by decide
example : lineToHunk " @@ -1 +1 @@" = none := by decide
example : lineToHunk "@@ -1,2,3 +4 @@" = none := by decide
example : lineToHunk "@@ -1,2  +4 @@" = none := by decide
example : lineToHunk "@@@ -1,2 +3,4 @@" = some (1, 3) := by decide
example : parse_patch_hunks (some "x\n@@ -3,2 +3,2 @@\ny\n@@ -9 +9 @@") =
    [(3, 5), (9, 10)] := by decide
example : parse_patch_hunks (some "") = [] := by decide
example : parse_patch_hunks none = [] := by decide

example : merge_close_hunks [(5, 8), (15, 18)] 10 = [(5, 18)] := by decide
example : merge_close_hunks [(5, 8), (15, 18)] 5 = [(5, 8), (15, 18)] := by decide
example : merge_close_hunks [(10, 12), (1, 3)] 0 = [(1, 3), (10, 12)] := by decide
example : merge_close_hunks [] 3 = [] := by decide

example :
    add_editable_region_markers
      (FileRecord.mk (some "@@ -2,2 +2,2 @@") (some "a\nb\nc\nd\ne") (some "a\nB\nC\nd\ne")) 1 1 10 =
    [ChunkRecord.mk 0 1 false (some 1) (some 5)
      (some "<|editable_region_start|>\na\nb\nc\nd\ne\n<|editable_region_end|>")
      (some "a\nB\nC\nd\ne")] := by decide

example :
    add_editable_region_markers (FileRecord.mk (some "junk") (some "a\nb") (some "a")) 1 5 10 =
    [degenChunk] := by decide

example :
    add_editable_region_markers (FileRecord.mk none (some "a\nb") (some "a")) 1 5 10 =
    [degenChunk] := by decide

/-! ### Lemmas about the merger -/

/-- The merging pass always returns a non-empty list whose head keeps the
start of the open region and whose end only ever grows. -/
theorem mergeLoop_head (g : Nat) (cur : Nat × Nat) (t : List (Nat × Nat)) :
    ∃ e tl, mergeLoop g cur t = (cur.1, e) :: tl ∧ cur.2 ≤ e := by
  induction t generalizing cur with
  | nil => exact ⟨cur.2, [], rfl, Nat.le_refl _⟩
  | cons c rest ih =>
    by_cases hc : c.1 ≤ cur.2 + g
    · simp only [mergeLoop, if_pos hc]
      obtain ⟨e, tl, heq, hle⟩ := ih (cur.1, max cur.2 c.2)
      exact ⟨e, tl, heq, Nat.le_trans (Nat.le_max_left _ _) hle⟩
    · simp only [mergeLoop, if_neg hc]
      exact ⟨cur.2, _, rfl, Nat.le_refl _⟩

/-- Consecutive output regions are separated by more than the gap: a
region is only closed when the next hunk starts strictly beyond
`end + max_gap`, and a closed region is never touched again. -/
theorem mergeLoop_chain (g : Nat) (cur : Nat × Nat) (t : List (Nat × Nat)) :
    List.Chain' (fun a b => a.2 + g < b.1) (mergeLoop g cur t) := by
  induction t generalizing cur with
  | nil => simp [mergeLoop]
  | cons c rest ih =>
    by_cases hc : c.1 ≤ cur.2 + g
    · simpa only [mergeLoop, if_pos hc] using ih (cur.1, max cur.2 c.2)
    · simp only [mergeLoop, if_neg hc]
      obtain ⟨e, tl, heq, -⟩ := mergeLoop_head g c rest
      rw [heq]
      exact List.Chain'.cons (Nat.lt_of_not_le hc) (heq ▸ ih c)

/-- Well-formed hunks produce well-formed regions. -/
theorem mergeLoop_wf (g : Nat) (cur : Nat × Nat) (t : List (Nat × Nat))
    (hcur : cur.1 ≤ cur.2) (ht : ∀ x ∈ t, x.1 ≤ x.2) :
    ∀ r ∈ mergeLoop g cur t, r.1 ≤ r.2 := by
  induction t generalizing cur with
  | nil =>
    intro r hr
    simp only [mergeLoop, List.mem_singleton] at hr
    exact hr ▸ hcur
  | cons c rest ih =>
    intro r hr
    by_cases hc : c.1 ≤ cur.2 + g
    · simp only [mergeLoop, if_pos hc] at hr
      exact ih (cur.1, max cur.2 c.2) (Nat.le_trans hcur (Nat.le_max_left _ _))
        (fun x hx => ht x (List.mem_cons_of_mem _ hx)) r hr
    · simp only [mergeLoop, if_neg hc, List.mem_cons] at hr
      rcases hr with rfl | hr
      · exact hcur
      · exact ih c (ht c (List.mem_cons_self _ _))
          (fun x hx => ht x (List.mem_cons_of_mem _ hx)) r hr

/-- Every hunk fed to the merging pass ends up inside some output
region, provided the input is sorted by start. -/
theorem mergeLoop_contains (g : Nat) (cur : Nat × Nat) (t : List (Nat × Nat))
    (hsort : List.Pairwise leStart (cur :: t)) :
    ∀ h ∈ cur :: t, ∃ r ∈ mergeLoop g cur t, r.1 ≤ h.1 ∧ h.2 ≤ r.2 := by
  induction t generalizing cur with
  | nil =>
    intro h hh
    simp only [List.mem_singleton] at hh
    subst hh
    obtain ⟨e, tl, heq, hle⟩ := mergeLoop_head g h []
    exact ⟨(h.1, e), heq ▸ List.mem_cons_self _ _, Nat.le_refl _, hle⟩
  | cons c rest ih =>
    intro h hh
    rcases List.pairwise_cons.mp hsort with ⟨hcur_le, hsort_t⟩
    by_cases hc : c.1 ≤ cur.2 + g
    · have hsort' : List.Pairwise leStart ((cur.1, max cur.2 c.2) :: rest) := by
        refine List.pairwise_cons.mpr ⟨?_, (List.pairwise_cons.mp hsort_t).2⟩
        intro x hx
        exact hcur_le x (List.mem_cons_of_mem _ hx)
      have hmain := ih (cur.1, max cur.2 c.2) hsort'
      have hself := hmain (cur.1, max cur.2 c.2) (List.mem_cons_self _ _)
      obtain ⟨r, hr_mem, hr1, hr2⟩ := hself
      simp only [mergeLoop, if_pos hc]
      rcases hh with _ | ⟨_, hh⟩
      · exact ⟨r, hr_mem, hr1, Nat.le_trans (Nat.le_max_left _ _) hr2⟩
      · rcases hh with _ | ⟨_, hh⟩
        · exact ⟨r, hr_mem, Nat.le_trans hr1 (hcur_le c (List.mem_cons_self _ _)),
            Nat.le_trans (Nat.le_max_right _ _) hr2⟩
        · exact hmain h (List.mem_cons_of_mem _ hh)
    · simp only [mergeLoop, if_neg hc]
      rcases hh with _ | ⟨_, hh⟩
      · exact ⟨cur, List.mem_cons_self _ _, Nat.le_refl _, Nat.le_refl _⟩
      · obtain ⟨r, hr_mem, hr⟩ := ih c hsort_t h hh
        exact ⟨r, List.mem_cons_of_mem _ hr_mem, hr⟩

/-- Unfolding helper for `merge_close_hunks`. -/
theorem merge_close_hunks_eq (hunks : List (Nat × Nat)) (g : Nat) :
    merge_close_hunks hunks g =
      match sortHunks hunks with
      | [] => []
      | h :: t => mergeLoop g h t := rfl

/-- Membership is preserved by the sort. -/
theorem mem_sortHunks {h : Nat × Nat} {l : List (Nat × Nat)} :
    h ∈ sortHunks l ↔ h ∈ l :=
  (List.perm_insertionSort leStart l).mem_iff

/-- The sort orders hunks by start. -/
theorem sortHunks_pairwise (l : List (Nat × Nat)) :
    List.Pairwise leStart (sortHunks l) :=
  List.sorted_insertionSort leStart l

/-- The merged output of a list of well-formed hunks consists of
well-formed regions. -/
theorem merge_wf (hunks : List (Nat × Nat)) (g : Nat)
    (hwf : ∀ h ∈ hunks, h.1 ≤ h.2) :
    ∀ r ∈ merge_close_hunks hunks g, r.1 ≤ r.2 := by
  rw [merge_close_hunks_eq]
  rcases hs : sortHunks hunks with - | ⟨h, t⟩
  · intro r hr
    simp at hr
  · have hwf' : ∀ x ∈ h :: t, x.1 ≤ x.2 := by
      intro x hx
      exact hwf x (mem_sortHunks.mp (hs ▸ hx))
    exact mergeLoop_wf g h t (hwf' h (List.mem_cons_self _ _))
      (fun x hx => hwf' x (List.mem_cons_of_mem _ hx))

/-- Consecutive merged regions are separated by more than the gap. -/
theorem merge_chain (hunks : List (Nat × Nat)) (g : Nat) :
    List.Chain' (fun a b => a.2 + g < b.1) (merge_close_hunks hunks g) := by
  rw [merge_close_hunks_eq]
  rcases hs : sortHunks hunks with - | ⟨h, t⟩
  · simp
  · exact mergeLoop_chain g h t

/-- Every input hunk is contained in some merged region. -/
theorem merge_contains (hunks : List (Nat × Nat)) (g : Nat) :
    ∀ h ∈ hunks, ∃ r ∈ merge_close_hunks hunks g, r.1 ≤ h.1 ∧ h.2 ≤ r.2 := by
  intro h hh
  rw [merge_close_hunks_eq]
  rcases hs : sortHunks hunks with - | ⟨x, t⟩
  · exact absurd (mem_sortHunks.mpr hh) (by simp [hs])
  · exact mergeLoop_contains g x t (hs ▸ sortHunks_pairwise hunks) h
      (hs ▸ mem_sortHunks.mpr hh)

/-- In a gap-separated list of well-formed regions, every region after
the head starts strictly beyond the head's end. -/
theorem chain_wf_far_after_head (g : Nat) (r : Nat × Nat) (rest : List (Nat × Nat))
    (hwf : ∀ x ∈ rest, x.1 ≤ x.2)
    (hch : List.Chain' (fun a b => a.2 + g < b.1) (r :: rest)) :
    ∀ x ∈ rest, r.2 < x.1 := by
  induction rest generalizing r with
  | nil => intro x hx; simp at hx
  | cons b t ih =>
    intro x hx
    rcases List.chain'_cons.mp hch with ⟨hrb, hbt⟩
    have hrb' : r.2 < b.1 := Nat.lt_of_le_of_lt (Nat.le_add_right _ _) hrb
    rcases hx with _ | ⟨_, hx⟩
    · exact hrb'
    · have := ih b (fun y hy => hwf y (List.mem_cons_of_mem _ hy)) hbt x hx
      exact Nat.lt_trans (Nat.lt_of_lt_of_le hrb' (hwf b (List.mem_cons_self _ _))) this

/-- A well-formed hunk contained in some region of a gap-separated,
well-formed region list is contained in exactly one region. -/
theorem countP_contains_eq_one (g : Nat) (rs : List (Nat × Nat)) (h : Nat × Nat)
    (hwf : ∀ r ∈ rs, r.1 ≤ r.2)
    (hch : List.Chain' (fun a b => a.2 + g < b.1) rs)
    (hh : h.1 ≤ h.2)
    (hex : ∃ r ∈ rs, r.1 ≤ h.1 ∧ h.2 ≤ r.2) :
    rs.countP (fun r => decide (r.1 ≤ h.1 ∧ h.2 ≤ r.2)) = 1 := by
  induction rs with
  | nil => simp at hex
  | cons r rest ih =>
    have hfar : ∀ x ∈ rest, r.2 < x.1 :=
      chain_wf_far_after_head g r rest (fun x hx => hwf x (List.mem_cons_of_mem _ hx)) hch
    by_cases hcont : r.1 ≤ h.1 ∧ h.2 ≤ r.2
    · have hzero : rest.countP (fun x => decide (x.1 ≤ h.1 ∧ h.2 ≤ x.2)) = 0 := by
        rw [List.countP_eq_zero]
        intro x hx hxc
        rw [decide_eq_true_eq] at hxc
        have h1 : r.2 < x.1 := hfar x hx
        have h2 : x.1 ≤ h.1 := hxc.1
        omega
      rw [List.countP_cons, hzero, if_pos (decide_eq_true_eq.mpr hcont)]
    · rw [List.countP_cons, if_neg (by simpa using hcont)]
      refine ih (fun x hx => hwf x (List.mem_cons_of_mem _ hx)) hch.tail ?_
      rcases hex with ⟨x, hx, hxc⟩
      rcases hx with _ | ⟨_, hx⟩
      · exact absurd hxc hcont
      · exact ⟨x, hx, hxc⟩

/-- From gap separation and well-formedness: strictly ascending starts
and pairwise non-overlap of consecutive regions. -/
theorem chain_wf_strengthen (g : Nat) (l : List (Nat × Nat))
    (hwf : ∀ r ∈ l, r.1 ≤ r.2)
    (hch : List.Chain' (fun a b => a.2 + g < b.1) l) :
    List.Chain' (fun a b => a.1 < b.1) l ∧ List.Chain' (fun a b => a.2 < b.1) l := by
  induction l with
  | nil => exact ⟨List.chain'_nil, List.chain'_nil⟩
  | cons a t ih =>
    rcases t with - | ⟨b, t2⟩
    · exact ⟨List.chain'_singleton a, List.chain'_singleton a⟩
    · rcases List.chain'_cons.mp hch with ⟨hab, hbt⟩
      have hab' : a.2 < b.1 := Nat.lt_of_le_of_lt (Nat.le_add_right _ _) hab
      have ha : a.1 ≤ a.2 := hwf a (List.mem_cons_self _ _)
      obtain ⟨ih1, ih2⟩ := ih (fun r hr => hwf r (List.mem_cons_of_mem _ hr)) hbt
      exact ⟨List.chain'_cons.mpr ⟨Nat.lt_of_le_of_lt ha hab', ih1⟩,
        List.chain'_cons.mpr ⟨hab', ih2⟩⟩

/-- Re-running the merging pass over an already gap-separated list
changes nothing: every step takes the `else` branch. -/
theorem mergeLoop_of_chain (g : Nat) (cur : Nat × Nat) (t : List (Nat × Nat))
    (hch : List.Chain' (fun a b => a.2 + g < b.1) (cur :: t)) :
    mergeLoop g cur t = cur :: t := by
  induction t generalizing cur with
  | nil => rfl
  | cons c rest ih =>
    rcases List.chain'_cons.mp hch with ⟨hcc, hct⟩
    have hno : ¬ c.1 ≤ cur.2 + g := Nat.not_le_of_lt hcc
    simp only [mergeLoop, if_neg hno]
    rw [ih c hct]

/-- The number of regions after merging never grows when the gap
parameter grows: a pointwise simulation between the two passes, keeping
the invariant that the larger-gap pass has an open region ending no
earlier than the smaller-gap pass's. -/
theorem mergeLoop_length_mono (g1 g2 : Nat) (hg : g1 ≤ g2) (t : List (Nat × Nat)) :
    ∀ cur1 cur2 : Nat × Nat, cur1.2 ≤ cur2.2 →
      (mergeLoop g2 cur2 t).length ≤ (mergeLoop g1 cur1 t).length := by
  induction t with
  | nil =>
    intro cur1 cur2 _
    simp [mergeLoop]
  | cons c rest ih =>
    intro cur1 cur2 he
    by_cases h2 : c.1 ≤ cur2.2 + g2
    · by_cases h1 : c.1 ≤ cur1.2 + g1
      · simp only [mergeLoop, if_pos h1, if_pos h2]
        exact ih _ _ (max_le_max he (Nat.le_refl c.2))
      · simp only [mergeLoop, if_pos h2, if_neg h1, List.length_cons]
        exact Nat.le_trans (ih c _ (Nat.le_max_right _ _)) (Nat.le_succ _)
    · have h1 : ¬ c.1 ≤ cur1.2 + g1 := by omega
      simp only [mergeLoop, if_neg h1, if_neg h2, List.length_cons]
      exact Nat.succ_le_succ (ih c c (Nat.le_refl _))

/-- Decomposition of coverage over a cons cell. -/
theorem covers_cons (h : Nat × Nat) (t : List (Nat × Nat)) (x : Nat) :
    covers (h :: t) x = true ↔ (h.1 ≤ x ∧ x < h.2) ∨ covers t x = true := by
  simp [covers, List.any_cons]

/-- At `max_gap = 0` the merging pass only ever unions overlapping or
adjacent ranges, so it covers nothing new. -/
theorem mergeLoop_zero_covers (t : List (Nat × Nat)) :
    ∀ cur : Nat × Nat, List.Pairwise leStart (cur :: t) → ∀ x : Nat,
      covers (mergeLoop 0 cur t) x = true → covers (cur :: t) x = true := by
  induction t with
  | nil =>
    intro cur _ x hx
    exact hx
  | cons c rest ih =>
    intro cur hsort x hx
    rcases List.pairwise_cons.mp hsort with ⟨hcur_le, hsort_t⟩
    by_cases hc : c.1 ≤ cur.2 + 0
    · rw [show mergeLoop 0 cur (c :: rest) = mergeLoop 0 (cur.1, max cur.2 c.2) rest from
        by simp only [mergeLoop, if_pos hc]] at hx
      have hsort' : List.Pairwise leStart ((cur.1, max cur.2 c.2) :: rest) :=
        List.pairwise_cons.mpr ⟨fun y hy => hcur_le y (List.mem_cons_of_mem _ hy),
          (List.pairwise_cons.mp hsort_t).2⟩
      have hx' := (covers_cons _ _ _).mp (ih (cur.1, max cur.2 c.2) hsort' x hx)
      rw [covers_cons, covers_cons]
      rcases hx' with ⟨hf1, hf2⟩ | hrest
      · simp only at hf1 hf2
        rcases Nat.lt_or_ge x cur.2 with hlt | hge
        · exact Or.inl ⟨hf1, hlt⟩
        · exact Or.inr (Or.inl ⟨by omega, by omega⟩)
      · exact Or.inr (Or.inr hrest)
    · rw [show mergeLoop 0 cur (c :: rest) = cur :: mergeLoop 0 c rest from
        by simp only [mergeLoop, if_neg hc]] at hx
      rw [covers_cons] at hx
      rw [covers_cons]
      rcases hx with hfirst | htail
      · exact Or.inl hfirst
      · exact Or.inr (ih c hsort_t x htail)

/-! ### Lemmas about the parser -/

/-- `takeDigits` splits a digit run followed by a non-digit exactly at
the boundary. -/
theorem takeDigits_append (ds rest : List Char)
    (hds : ∀ c ∈ ds, c.isDigit = true)
    (hrest : ∀ c, rest.head? = some c → c.isDigit = false) :
    takeDigits (ds ++ rest) = (ds, rest) := by
  induction ds with
  | nil =>
    cases rest with
    | nil => rfl
    | cons c cs =>
      have hc := hrest c rfl
      simp [takeDigits, hc]
  | cons d ds ih =>
    have hd := hds d (List.mem_cons_self _ _)
    simp [takeDigits, hd, ih (fun c hc => hds c (List.mem_cons_of_mem _ hc))]

/-- Helper: a list with an explicit non-digit head satisfies the
side-condition of `takeDigits_append`. -/
theorem head_cons_notDigit {c0 : Char} {t : List Char} (h : c0.isDigit = false) :
    ∀ c, (c0 :: t).head? = some c → c.isDigit = false := by
  intro c hc
  rw [List.head?_cons] at hc
  cases hc
  exact h

/-- A well-formed hunk-header line parses to exactly the old-range
captures the spec prescribes. -/
theorem lineGroups_mkHeaderL (ds : List Char) (cs : Option (List Char)) (ns : List Char)
    (ms : Option (List Char)) (tl : List Char)
    (hds : digitStr ds) (hcs : ∀ l, cs = some l → digitStr l)
    (hns : digitStr ns) (hms : ∀ l, ms = some l → digitStr l) :
    lineGroups (mkHeaderL ds cs ns ms tl) =
      some (digitsVal ds, match cs with | none => none | some l => some (digitsVal l)) := by
  have hde : ds.isEmpty = false := by
    cases ds with
    | nil => exact absurd rfl hds.1
    | cons _ _ => rfl
  have hne : ns.isEmpty = false := by
    cases ns with
    | nil => exact absurd rfl hns.1
    | cons _ _ => rfl
  have hMatch : matchRange (mkHeaderL ds cs ns ms tl) =
      some (digitsVal ds, match cs with | none => none | some l => some (digitsVal l)) := by
    rcases cs with - | csl <;> rcases ms with - | msl
    · have h1 := takeDigits_append ds (' ' :: '+' :: (ns ++ (' ' :: '@' :: '@' :: tl)))
        hds.2 (head_cons_notDigit (by decide))
      have h3 := takeDigits_append ns (' ' :: '@' :: '@' :: tl)
        hns.2 (head_cons_notDigit (by decide))
      simp [mkHeaderL, optComma, matchRange, h1, h3, hde, hne, skipComma, takeDigits]
    · obtain ⟨hm1, hm2⟩ := hms msl rfl
      have h1 := takeDigits_append ds
        (' ' :: '+' :: (ns ++ (',' :: (msl ++ (' ' :: '@' :: '@' :: tl)))))
        hds.2 (head_cons_notDigit (by decide))
      have h3 := takeDigits_append ns (',' :: (msl ++ (' ' :: '@' :: '@' :: tl)))
        hns.2 (head_cons_notDigit (by decide))
      have h4 := takeDigits_append msl (' ' :: '@' :: '@' :: tl)
        hm2 (head_cons_notDigit (by decide))
      simp [mkHeaderL, optComma, matchRange, h1, h3, h4, hde, hne, skipComma, takeDigits]
    · obtain ⟨hc1, hc2⟩ := hcs csl rfl
      have hce : csl.isEmpty = false := by
        cases csl with
        | nil => exact absurd rfl hc1
        | cons _ _ => rfl
      have h1 := takeDigits_append ds
        (',' :: (csl ++ (' ' :: '+' :: (ns ++ (' ' :: '@' :: '@' :: tl)))))
        hds.2 (head_cons_notDigit (by decide))
      have h2 := takeDigits_append csl (' ' :: '+' :: (ns ++ (' ' :: '@' :: '@' :: tl)))
        hc2 (head_cons_notDigit (by decide))
      have h3 := takeDigits_append ns (' ' :: '@' :: '@' :: tl)
        hns.2 (head_cons_notDigit (by decide))
      simp [mkHeaderL, optComma, matchRange, h1, h2, h3, hde, hne, hce, skipComma, takeDigits]
    · obtain ⟨hc1, hc2⟩ := hcs csl rfl
      obtain ⟨hm1, hm2⟩ := hms msl rfl
      have hce : csl.isEmpty = false := by
        cases csl with
        | nil => exact absurd rfl hc1
        | cons _ _ => rfl
      have h1 := takeDigits_append ds
        (',' :: (csl ++ (' ' :: '+' :: (ns ++ (',' :: (msl ++ (' ' :: '@' :: '@' :: tl)))))))
        hds.2 (head_cons_notDigit (by decide))
      have h2 := takeDigits_append csl
        (' ' :: '+' :: (ns ++ (',' :: (msl ++ (' ' :: '@' :: '@' :: tl)))))
        hc2 (head_cons_notDigit (by decide))
      have h3 := takeDigits_append ns (',' :: (msl ++ (' ' :: '@' :: '@' :: tl)))
        hns.2 (head_cons_notDigit (by decide))
      have h4 := takeDigits_append msl (' ' :: '@' :: '@' :: tl)
        hm2 (head_cons_notDigit (by decide))
      simp [mkHeaderL, optComma, matchRange, h1, h2, h3, h4, hde, hne, hce, skipComma,
        takeDigits]
  show searchRange (mkHeaderL ds cs ns ms tl) = _
  rw [show searchRange (mkHeaderL ds cs ns ms tl) =
    match matchRange (mkHeaderL ds cs ns ms tl) with
    | some g => some g
    | none => searchRange ((mkHeaderL ds cs ns ms tl).tail) from rfl]
  rw [hMatch]

/-- A well-formed hunk-header line contributes exactly the hunk
`(old_start, old_start + old_count)`. -/
theorem lineToHunkL_mkHeaderL (ds : List Char) (cs : Option (List Char)) (ns : List Char)
    (ms : Option (List Char)) (tl : List Char)
    (hds : digitStr ds) (hcs : ∀ l, cs = some l → digitStr l)
    (hns : digitStr ns) (hms : ∀ l, ms = some l → digitStr l) :
    lineToHunkL (mkHeaderL ds cs ns ms tl) =
      some (digitsVal ds, digitsVal ds + oldCountVal cs) := by
  rw [lineToHunkL, lineGroups_mkHeaderL ds cs ns ms tl hds hcs hns hms]
  rcases cs with - | csl
  · rfl
  · rfl

/-- The parser is the line-by-line filter: each line contributes at most
one hunk, in line order; it never aborts. -/
theorem parse_patch_hunks_eq_filterMap (p : String) :
    parse_patch_hunks (some p) = (pySplitLines p).filterMap lineToHunk := by
  rw [parse_patch_hunks]
  by_cases hp : p.isEmpty
  · rw [if_pos hp]
    have hp' : p = "" := (String.isEmpty_iff p).mp hp
    subst hp'
    rfl
  · rw [if_neg hp]

/-- Every hunk the parser emits has `end ≥ start` (the end is
`start + count` over naturals). -/
theorem parse_patch_hunks_wf (patch : Option String) :
    ∀ h ∈ parse_patch_hunks patch, h.1 ≤ h.2 := by
  intro h hh
  rcases patch with - | p
  · simp [parse_patch_hunks] at hh
  · rw [parse_patch_hunks_eq_filterMap] at hh
    obtain ⟨line, -, heq⟩ := List.mem_filterMap.mp hh
    rw [lineToHunk, lineToHunkL] at heq
    rcases hlg : lineGroups line.toList with - | ⟨s, oc⟩
    · rw [hlg] at heq
      exact absurd heq (by simp)
    · rw [hlg] at heq
      simp only [Option.some.injEq] at heq
      rw [← heq]
      exact Nat.le_add_right _ _

/-- When every matched header has a positive old start and (when
explicit) a positive old count, every parsed hunk satisfies
`1 ≤ start < end`. -/
theorem parse_patch_hunks_pos (p : String)
    (hval : ∀ line ∈ pySplitLines p, headerOK line.toList = true) :
    ∀ h ∈ parse_patch_hunks (some p), 1 ≤ h.1 ∧ h.1 < h.2 := by
  intro h hh
  rw [parse_patch_hunks_eq_filterMap] at hh
  obtain ⟨line, hline, heq⟩ := List.mem_filterMap.mp hh
  rw [lineToHunk, lineToHunkL] at heq
  have hok := hval line hline
  rw [headerOK] at hok
  rcases hlg : lineGroups line.toList with - | ⟨s, oc⟩
  · rw [hlg] at heq
    exact absurd heq (by simp)
  · rw [hlg] at heq hok
    simp only [Option.some.injEq] at heq
    rw [← heq]
    rcases oc with - | c
    · simp only [Bool.and_true, decide_eq_true_eq] at hok
      exact ⟨hok, by simp⟩
    · simp only [Bool.and_eq_true, decide_eq_true_eq] at hok
      refine ⟨hok.1, ?_⟩
      have := hok.2
      simp only [Option.getD]
      omega

/-- Coverage unfolded to membership. -/
theorem covers_iff (l : List (Nat × Nat)) (x : Nat) :
    covers l x = true ↔ ∃ hk ∈ l, hk.1 ≤ x ∧ x < hk.2 := by
  simp [covers]

/-- Merging can only extend coverage. -/
theorem merge_covers_superset (hunks : List (Nat × Nat)) (g x : Nat)
    (hx : covers hunks x = true) :
    covers (merge_close_hunks hunks g) x = true := by
  obtain ⟨hk, hmem, h1, h2⟩ := (covers_iff hunks x).mp hx
  obtain ⟨r, hr, hr1, hr2⟩ := merge_contains hunks g hk hmem
  exact (covers_iff _ x).mpr ⟨r, hr, Nat.le_trans hr1 h1, Nat.lt_of_lt_of_le h2 hr2⟩

/-- At `max_gap = 0`, merging preserves coverage exactly. -/
theorem merge_zero_covers (hunks : List (Nat × Nat)) (x : Nat) :
    covers (merge_close_hunks hunks 0) x = true ↔ covers hunks x = true := by
  constructor
  · intro hx
    rw [merge_close_hunks_eq] at hx
    rcases hs : sortHunks hunks with - | ⟨h, t⟩
    · rw [hs] at hx
      simp [covers] at hx
    · rw [hs] at hx
      have h2 := mergeLoop_zero_covers t h (hs ▸ sortHunks_pairwise hunks) x hx
      obtain ⟨hk, hmem, hc⟩ := (covers_iff _ x).mp h2
      exact (covers_iff _ x).mpr ⟨hk, mem_sortHunks.mp (hs ▸ hmem), hc⟩
  · exact merge_covers_superset hunks 0 x

/-- Merging a non-empty hunk list yields at least one region. -/
theorem merge_ne_nil (hunks : List (Nat × Nat)) (g : Nat) (hh : hunks ≠ []) :
    merge_close_hunks hunks g ≠ [] := by
  rw [merge_close_hunks_eq]
  rcases hs : sortHunks hunks with - | ⟨h, t⟩
  · exfalso
    have := (List.perm_insertionSort leStart hunks).length_eq
    rw [show List.insertionSort leStart hunks = sortHunks hunks from rfl, hs] at this
    cases hunks with
    | nil => exact hh rfl
    | cons a t2 => simp at this
  · obtain ⟨e, tl, heq, -⟩ := mergeLoop_head g h t
    show mergeLoop g h t ≠ []
    rw [heq]
    simp

/-! ### Lemmas about the materializer -/

/-- When both marker positions lie strictly below the running index, the
marker loop copies the lines unchanged. -/
theorem markLoop_past (rs re : Nat) (lines : List String) :
    ∀ i : Nat, rs < i → re < i → markLoop rs re i lines = lines := by
  induction lines with
  | nil => intro i _ _; rfl
  | cons l rest ih =>
    intro i hrs hre
    simp only [markLoop, if_neg (by omega : ¬ i = rs), if_neg (by omega : ¬ i = re),
      List.nil_append]
    rw [ih (i + 1) (by omega) (by omega)]

/-- When the start position is already past but the end position is in
range, the marker loop inserts only the end marker, after the line
numbered `re`. -/
theorem markLoop_end_only (rs re : Nat) (lines : List String) :
    ∀ i : Nat, rs < i → i ≤ re → re < i + lines.length →
      markLoop rs re i lines =
        lines.take (re + 1 - i) ++ endMarker :: lines.drop (re + 1 - i) := by
  induction lines with
  | nil =>
    intro i _ hle hlt
    simp only [List.length_nil] at hlt
    omega
  | cons l rest ih =>
    intro i hrs hle hlt
    simp only [markLoop, if_neg (by omega : ¬ i = rs), List.nil_append]
    by_cases hie : i = re
    · simp only [if_pos hie]
      rw [markLoop_past rs re rest (i + 1) (by omega) (by omega)]
      rw [show re + 1 - i = 1 from by omega]
      simp
    · simp only [if_neg hie, List.nil_append]
      rw [ih (i + 1) (by omega) (by omega) (by simp at hlt ⊢; omega)]
      rw [show re + 1 - i = (re + 1 - (i + 1)) + 1 from by omega]
      simp

/-- Both marker positions in range: the marker loop inserts the start
marker immediately before line `rs` and the end marker immediately after
line `re`. -/
theorem markLoop_both (rs re : Nat) (lines : List String) :
    ∀ i : Nat, i ≤ rs → rs ≤ re → re < i + lines.length →
      markLoop rs re i lines =
        lines.take (rs - i) ++ startMarker ::
          ((lines.drop (rs - i)).take (re + 1 - rs) ++ endMarker ::
            lines.drop (re + 1 - i)) := by
  induction lines with
  | nil =>
    intro i _ hsr hlt
    simp only [List.length_nil] at hlt
    omega
  | cons l rest ih =>
    intro i his hsr hlt
    simp only [List.length_cons] at hlt
    by_cases hirs : i = rs
    · simp only [markLoop, if_pos hirs, List.cons_append, List.nil_append]
      rw [show rs - i = 0 from by omega]
      simp only [List.take_zero, List.drop_zero, List.nil_append]
      by_cases hire : i = re
      · simp only [if_pos hire]
        rw [markLoop_past rs re rest (i + 1) (by omega) (by omega)]
        rw [show re + 1 - rs = 1 from by omega, show re + 1 - i = 1 from by omega]
        simp
      · simp only [if_neg hire, List.nil_append]
        rw [markLoop_end_only rs re rest (i + 1) (by omega) (by omega) (by omega)]
        rw [show re + 1 - rs = (re + 1 - (i + 1)) + 1 from by omega,
          show re + 1 - i = (re + 1 - (i + 1)) + 1 from by omega]
        simp
    · simp only [markLoop, if_neg hirs, if_neg (by omega : ¬ i = re), List.nil_append]
      rw [ih (i + 1) (by omega) hsr (by omega)]
      rw [show rs - i = (rs - (i + 1)) + 1 from by omega,
        show re + 1 - i = (re + 1 - (i + 1)) + 1 from by omega]
      simp

/-- `chunksFrom` produces one chunk per region, with consecutive ids. -/
theorem chunksFrom_length (bl al : List String) (cb ca total : Nat)
    (regions : List (Nat × Nat)) :
    ∀ i : Nat, (chunksFrom bl al cb ca total i regions).length = regions.length := by
  induction regions with
  | nil => intro i; rfl
  | cons hk rest ih =>
    intro i
    simp only [chunksFrom, List.length_cons, ih (i + 1)]

/-- Each member of `chunksFrom` is a `buildChunk` of some region. -/
theorem chunksFrom_mem (bl al : List String) (cb ca total : Nat)
    (regions : List (Nat × Nat)) :
    ∀ i : Nat, ∀ c ∈ chunksFrom bl al cb ca total i regions,
      ∃ hk ∈ regions, ∃ j : Nat, c = buildChunk bl al cb ca j total hk := by
  induction regions with
  | nil => intro i c hc; simp [chunksFrom] at hc
  | cons hk rest ih =>
    intro i c hc
    rcases hc with _ | ⟨_, hc⟩
    · exact ⟨hk, List.mem_cons_self _ _, i, rfl⟩
    · obtain ⟨hk2, hmem, j, hj⟩ := ih (i + 1) c hc
      exact ⟨hk2, List.mem_cons_of_mem _ hmem, j, hj⟩

/-- The chunk at position `k` carries `chunk_id = i + k` and the shared
total: ids are assigned in region order. -/
theorem chunksFrom_get (bl al : List String) (cb ca total : Nat)
    (regions : List (Nat × Nat)) :
    ∀ i k : Nat, ∀ hk : k < (chunksFrom bl al cb ca total i regions).length,
      ((chunksFrom bl al cb ca total i regions).get ⟨k, hk⟩).chunk_id = i + k ∧
      ((chunksFrom bl al cb ca total i regions).get ⟨k, hk⟩).total_chunks_in_file = total := by
  induction regions with
  | nil =>
    intro i k hk
    simp [chunksFrom] at hk
  | cons r rest ih =>
    intro i k hk
    cases k with
    | zero => exact ⟨rfl, rfl⟩
    | succ k2 =>
      have hk2 : k2 < (chunksFrom bl al cb ca total (i + 1) rest).length := by
        simpa [chunksFrom] using hk
      have := ih (i + 1) k2 hk2
      simp only [chunksFrom, List.get_cons_succ]
      exact ⟨by rw [this.1]; omega, this.2⟩

/-- On the short-circuit condition the materializer emits exactly the
degenerate chunk. -/
theorem add_markers_degen (r : FileRecord) (cb ca g : Nat)
    (h : shortCircuit r = true) :
    add_editable_region_markers r cb ca g = [degenChunk] := by
  rw [add_editable_region_markers]
  rw [shortCircuit] at h
  simp only [Bool.or_eq_true, Bool.not_eq_true', List.isEmpty_iff] at h
  rcases h with (h1 | h2) | h3
  · rw [if_pos (Or.inl h1)]
  · rw [if_pos (Or.inr h2)]
  · by_cases hpb : truthy r.patch = false ∨ truthy r.before_content = false
    · rw [if_pos hpb]
    · rw [if_neg hpb, if_pos (by simp [h3])]

/-- Off the short-circuit condition the materializer is the per-region
chunk loop over the merged regions. -/
theorem add_markers_main (r : FileRecord) (cb ca g : Nat)
    (h : shortCircuit r = false) :
    add_editable_region_markers r cb ca g =
      chunksFrom (pySplitLines (r.before_content.getD ""))
        (if truthy r.after_content then pySplitLines (r.after_content.getD "")
          else pySplitLines (r.before_content.getD ""))
        cb ca (merge_close_hunks (parse_patch_hunks r.patch) g).length 0
        (merge_close_hunks (parse_patch_hunks r.patch) g) := by
  rw [shortCircuit] at h
  simp only [Bool.or_eq_false_iff, Bool.not_eq_false'] at h
  obtain ⟨⟨h1, h2⟩, h3⟩ := h
  rw [add_editable_region_markers]
  rw [if_neg (by simp [h1, h2])]
  rw [if_neg (by simp [h3])]

/-- The fields of a single materialized chunk, as the source computes
them. -/
theorem buildChunk_fields (bl al : List String) (cb ca j total : Nat) (hk : Nat × Nat) :
    (buildChunk bl al cb ca j total hk).chunk_id = j ∧
    (buildChunk bl al cb ca j total hk).total_chunks_in_file = total ∧
    (buildChunk bl al cb ca j total hk).editable_region_start = some (max 1 (hk.1 - cb)) ∧
    (buildChunk bl al cb ca j total hk).editable_region_end =
      some (min bl.length (hk.2 + ca)) ∧
    (buildChunk bl al cb ca j total hk).model_input_text =
      some (joinNl (markLoop (max 1 (hk.1 - cb)) (min bl.length (hk.2 + ca)) 1 bl)) ∧
    (buildChunk bl al cb ca j total hk).model_target_text =
      (if max 1 (hk.1 - cb) ≤ al.length ∧ min bl.length (hk.2 + ca) ≤ al.length then
        some (joinNl (pySlice al (max 1 (hk.1 - cb) - 1) (min bl.length (hk.2 + ca))))
      else none) :=
  ⟨rfl, rfl, rfl, rfl, rfl, rfl⟩

/-- The non-degenerate path holds exactly when the patch and the
before-content are truthy and the patch parses to at least one hunk. -/
theorem shortCircuit_false (r : FileRecord)
    (hp : truthy r.patch = true) (hb : truthy r.before_content = true)
    (hnz : parse_patch_hunks r.patch ≠ []) :
    shortCircuit r = false := by
  rw [shortCircuit, hp, hb]
  rcases hl : parse_patch_hunks r.patch with - | ⟨a, t⟩
  · exact absurd hl hnz
  · rfl

/-- Extraction of the three facts from a false short-circuit test. -/
theorem shortCircuit_false_parts (r : FileRecord) (h : shortCircuit r = false) :
    truthy r.patch = true ∧ truthy r.before_content = true ∧
      parse_patch_hunks r.patch ≠ [] := by
  rw [shortCircuit] at h
  simp only [Bool.or_eq_false_iff, Bool.not_eq_false'] at h
  refine ⟨h.1.1, h.1.2, ?_⟩
  intro hnil
  rw [hnil] at h
  simp at h

/-- The chunk ids of the per-region loop are consecutive from the
starting index. -/
theorem chunksFrom_map_id (bl al : List String) (cb ca total : Nat)
    (regions : List (Nat × Nat)) :
    ∀ i : Nat, (chunksFrom bl al cb ca total i regions).map (fun c => c.chunk_id) =
      List.range' i regions.length := by
  induction regions with
  | nil => intro i; rfl
  | cons hk rest ih =>
    intro i
    simp only [chunksFrom, List.map_cons, List.length_cons, List.range'_succ, ih (i + 1)]
    rfl

/-- Every chunk of the per-region loop carries the shared total. -/
theorem chunksFrom_total (bl al : List String) (cb ca total : Nat)
    (regions : List (Nat × Nat)) :
    ∀ i : Nat, ∀ c ∈ chunksFrom bl al cb ca total i regions,
      c.total_chunks_in_file = total := by
  intro i c hc
  obtain ⟨hk, -, j, rfl⟩ := chunksFrom_mem bl al cb ca total regions i c hc
  rfl

/-! ### The claims -/

/-- C1: for every finite sequence of well-formed DiffHunks and every
`maxGap ≥ 0`, `merge_close_hunks` returns regions sorted strictly
ascending by start and pairwise non-overlapping (consecutive regions
satisfy `prev.end < next.start`), every input hunk's `[start, end)` is
contained in exactly one output region, and empty input yields empty
output. -/
theorem C1_merged_regions_partition (hunks : List (Nat × Nat)) (g : Nat)
    (hwf : ∀ h ∈ hunks, h.1 ≤ h.2) :
    List.Chain' (fun a b => a.1 < b.1) (merge_close_hunks hunks g) ∧
    List.Chain' (fun a b => a.2 < b.1) (merge_close_hunks hunks g) ∧
    (∀ h ∈ hunks, (merge_close_hunks hunks g).countP
      (fun r => decide (r.1 ≤ h.1 ∧ h.2 ≤ r.2)) = 1) ∧
    merge_close_hunks [] g = [] := by
  have hwfr := merge_wf hunks g hwf
  have hch := merge_chain hunks g
  obtain ⟨hc1, hc2⟩ := chain_wf_strengthen g _ hwfr hch
  refine ⟨hc1, hc2, ?_, rfl⟩
  intro h hh
  exact countP_contains_eq_one g _ h hwfr hch (hwf h hh) (merge_contains hunks g h hh)

/-- Witness for C1 at a concrete input. -/
theorem C1_partition_witness :
    (∀ h ∈ [(5, 8), (15, 18), (7, 9)], h.1 ≤ h.2) ∧
    (List.Chain' (fun a b => a.1 < b.1) (merge_close_hunks [(5, 8), (15, 18), (7, 9)] 5) ∧
      List.Chain' (fun a b => a.2 < b.1) (merge_close_hunks [(5, 8), (15, 18), (7, 9)] 5) ∧
      (∀ h ∈ [(5, 8), (15, 18), (7, 9)],
        (merge_close_hunks [(5, 8), (15, 18), (7, 9)] 5).countP
          (fun r => decide (r.1 ≤ h.1 ∧ h.2 ≤ r.2)) = 1) ∧
      merge_close_hunks [] 5 = []) :=
  ⟨by decide, C1_merged_regions_partition [(5, 8), (15, 18), (7, 9)] 5 (by decide)⟩

/-- C2: the parser maps empty or absent diff text to the empty sequence
and never errors; it is the in-order, line-by-line filter in which every
line matching the unified-diff range syntax contributes exactly the hunk
`(oldStart, oldStart + oldCount)` (`oldCount` defaulting to 1 when
absent) and every other line, including malformed hunk-header lines,
contributes nothing. -/
theorem C2_parser_linewise :
    parse_patch_hunks none = [] ∧
    parse_patch_hunks (some "") = [] ∧
    (∀ p : String, parse_patch_hunks (some p) = (pySplitLines p).filterMap lineToHunk) ∧
    (∀ l : List Char, lineToHunk (String.mk l) = lineToHunkL l) ∧
    (∀ ds cs ns ms tl, digitStr ds → (∀ l, cs = some l → digitStr l) → digitStr ns →
      (∀ l, ms = some l → digitStr l) →
      lineToHunkL (mkHeaderL ds cs ns ms tl) =
        some (digitsVal ds, digitsVal ds + oldCountVal cs)) ∧
    lineToHunk "@@ -1,2,3 +4 @@" = none :=
  ⟨rfl, by decide, parse_patch_hunks_eq_filterMap, fun _ => rfl,
    fun ds cs ns ms tl h1 h2 h3 h4 => lineToHunkL_mkHeaderL ds cs ns ms tl h1 h2 h3 h4,
    by decide⟩

/-- Witness for C2 at a concrete header line. -/
theorem C2_parser_witness :
    digitStr ['4', '2'] ∧
    lineToHunkL (mkHeaderL ['4', '2'] (some ['3']) ['7'] none ['x']) = some (42, 45) := by
  refine ⟨by decide, ?_⟩
  have h := C2_parser_linewise.2.2.2.2.1 ['4', '2'] (some ['3']) ['7'] none ['x']
    (by decide) (fun l hl => by cases hl; decide) (by decide) (fun l hl => nomatch hl)
  exact h.trans (by decide)

/-- C6 as stated is false: merging two hunks across a positive gap
covers the gap lines, which no input hunk covers.  With hunks `[1,3)`
and `[10,12)` and `maxGap = 10`, line 5 is covered by the merged output
but by no input hunk. -/
theorem C6_coverage_counterexample :
    covers (merge_close_hunks [(1, 3), (10, 12)] 10) 5 = true ∧
    covers [(1, 3), (10, 12)] 5 = false := by decide

/-- C6 amended: the union of the merged regions' coverage contains the
union of the input hunks' coverage, and the two are equal when
`maxGap = 0`. -/
theorem C6_coverage_amended (hunks : List (Nat × Nat)) (g x : Nat) :
    (covers hunks x = true → covers (merge_close_hunks hunks g) x = true) ∧
    (covers (merge_close_hunks hunks 0) x = true ↔ covers hunks x = true) :=
  ⟨merge_covers_superset hunks g x, merge_zero_covers hunks x⟩

/-- Witness for the amended C6 at a concrete input. -/
theorem C6_coverage_witness :
    covers [(1, 3), (10, 12)] 2 = true ∧
    covers (merge_close_hunks [(1, 3), (10, 12)] 10) 2 = true :=
  ⟨by decide, (C6_coverage_amended [(1, 3), (10, 12)] 10 2).1 (by decide)⟩

/-- C7 as stated is false: a valid unified diff creating a new file has
the header `@@ -0,0 +1,3 @@`, which the parser turns into the hunk
`(0, 0)`, violating both `start ≥ 1` and `end > start`. -/
theorem C7_positive_counterexample :
    parse_patch_hunks (some "--- a/f\n+++ b/f\n@@ -0,0 +1,3 @@\n+a\n+b\n+c") = [(0, 0)] ∧
    ¬ (∀ h ∈ parse_patch_hunks (some "--- a/f\n+++ b/f\n@@ -0,0 +1,3 @@\n+a\n+b\n+c"),
        1 ≤ h.1 ∧ h.1 < h.2) := by
  refine ⟨by decide, by decide⟩

/-- C7 amended: every parsed hunk satisfies `end ≥ start`
unconditionally, and when every matched header carries `oldStart ≥ 1`
and an explicit `oldCount ≥ 1` (the cases ruled out are exactly the
`-0`-start and `,0`-count headers of the counterexample), every parsed
hunk satisfies `start ≥ 1` and `end > start`. -/
theorem C7_parsed_hunk_bounds (p : String) :
    (∀ h ∈ parse_patch_hunks (some p), h.1 ≤ h.2) ∧
    ((∀ line ∈ pySplitLines p, headerOK line.toList = true) →
      ∀ h ∈ parse_patch_hunks (some p), 1 ≤ h.1 ∧ h.1 < h.2) :=
  ⟨parse_patch_hunks_wf (some p), parse_patch_hunks_pos p⟩

/-- Witness for the amended C7 at a concrete patch. -/
theorem C7_bounds_witness :
    (∀ line ∈ pySplitLines "x\n@@ -3,2 +3,2 @@\ny", headerOK line.toList = true) ∧
    (∀ h ∈ parse_patch_hunks (some "x\n@@ -3,2 +3,2 @@\ny"), 1 ≤ h.1 ∧ h.1 < h.2) :=
  ⟨by decide, (C7_parsed_hunk_bounds "x\n@@ -3,2 +3,2 @@\ny").2 (by decide)⟩

/-- C9: merging is idempotent for well-formed hunks: re-merging the
output with the same `maxGap` returns it unchanged. -/
theorem C9_merge_idempotent (hunks : List (Nat × Nat)) (g : Nat)
    (hwf : ∀ h ∈ hunks, h.1 ≤ h.2) :
    merge_close_hunks (merge_close_hunks hunks g) g = merge_close_hunks hunks g := by
  have hwfr := merge_wf hunks g hwf
  have hch := merge_chain hunks g
  have hlt := (chain_wf_strengthen g _ hwfr hch).1
  have hpair : List.Pairwise leStart (merge_close_hunks hunks g) := by
    have hp := (@List.chain'_iff_pairwise (Nat × Nat) (fun a b => a.1 < b.1)
      ⟨fun _ _ _ h1 h2 => Nat.lt_trans h1 h2⟩ (merge_close_hunks hunks g)).mp hlt
    exact hp.imp (fun hab => Nat.le_of_lt hab)
  have hsid : sortHunks (merge_close_hunks hunks g) = merge_close_hunks hunks g :=
    List.Sorted.insertionSort_eq hpair
  conv_lhs => rw [merge_close_hunks_eq, hsid]
  rcases hrs : merge_close_hunks hunks g with - | ⟨h, t⟩
  · rfl
  · show mergeLoop g h t = h :: t
    exact mergeLoop_of_chain g h t (hrs ▸ hch)

/-- Witness for C9 at a concrete input. -/
theorem C9_idempotent_witness :
    (∀ h ∈ [(1, 3), (10, 12), (2, 5)], h.1 ≤ h.2) ∧
    merge_close_hunks (merge_close_hunks [(1, 3), (10, 12), (2, 5)] 3) 3 =
      merge_close_hunks [(1, 3), (10, 12), (2, 5)] 3 :=
  ⟨by decide, C9_merge_idempotent [(1, 3), (10, 12), (2, 5)] 3 (by decide)⟩

/-- C10: merging is antitone in the gap parameter: a larger `maxGap`
never yields more regions. -/
theorem C10_merge_gap_monotone (hunks : List (Nat × Nat)) (g1 g2 : Nat) (hg : g1 ≤ g2) :
    (merge_close_hunks hunks g2).length ≤ (merge_close_hunks hunks g1).length := by
  rw [merge_close_hunks_eq, merge_close_hunks_eq]
  rcases hs : sortHunks hunks with - | ⟨h, t⟩
  · exact Nat.le_refl _
  · exact mergeLoop_length_mono g1 g2 hg t h h (Nat.le_refl _)

/-- Witness for C10 at a concrete input. -/
theorem C10_monotone_witness :
    2 ≤ 10 ∧ (merge_close_hunks [(5, 8), (15, 18)] 10).length ≤
      (merge_close_hunks [(5, 8), (15, 18)] 2).length :=
  ⟨by decide, C10_merge_gap_monotone [(5, 8), (15, 18)] 2 10 (by decide)⟩

/-- C3: on a record with truthy patch (parsing to at least one hunk, so
that merged regions exist) and truthy before-content of `L` lines, every
chunk's bounds are `region_start = max(1, hunk.start - contextBefore)`
and `region_end = min(L, hunk.end + contextAfter)` for its merged
region, computed over the integers; hence `region_start ≥ 1` and
`region_end ≤ L`. -/
theorem C3_region_bounds (r : FileRecord) (cb ca g : Nat)
    (hp : truthy r.patch = true) (hb : truthy r.before_content = true)
    (hnz : parse_patch_hunks r.patch ≠ []) :
    ∀ c ∈ add_editable_region_markers r cb ca g,
      ∃ hk ∈ merge_close_hunks (parse_patch_hunks r.patch) g, ∃ rs re : Nat,
        c.editable_region_start = some rs ∧
        c.editable_region_end = some re ∧
        (rs : Int) = max 1 ((hk.1 : Int) - (cb : Int)) ∧
        (re : Int) = min ((pySplitLines (r.before_content.getD "")).length : Int)
          ((hk.2 : Int) + (ca : Int)) ∧
        1 ≤ rs ∧ re ≤ (pySplitLines (r.before_content.getD "")).length := by
  intro c hc
  rw [add_markers_main r cb ca g (shortCircuit_false r hp hb hnz)] at hc
  obtain ⟨hk, hmem, j, rfl⟩ := chunksFrom_mem _ _ cb ca _ _ 0 c hc
  obtain ⟨-, -, h3, h4, -, -⟩ := buildChunk_fields _ _ cb ca j _ hk
  refine ⟨hk, hmem, max 1 (hk.1 - cb),
    min (pySplitLines (r.before_content.getD "")).length (hk.2 + ca),
    h3, h4, by omega, by omega, by omega, by omega⟩

/-- Witness for C3 at a concrete record. -/
theorem C3_bounds_witness :
    (truthy (FileRecord.mk (some "@@ -2,2 +2,2 @@") (some "a\nb\nc\nd\ne")
        (some "a\nB\nC\nd\ne")).patch = true ∧
      truthy (FileRecord.mk (some "@@ -2,2 +2,2 @@") (some "a\nb\nc\nd\ne")
        (some "a\nB\nC\nd\ne")).before_content = true ∧
      parse_patch_hunks (FileRecord.mk (some "@@ -2,2 +2,2 @@") (some "a\nb\nc\nd\ne")
        (some "a\nB\nC\nd\ne")).patch ≠ []) ∧
    (∀ c ∈ add_editable_region_markers (FileRecord.mk (some "@@ -2,2 +2,2 @@")
        (some "a\nb\nc\nd\ne") (some "a\nB\nC\nd\ne")) 1 1 10,
      ∃ hk ∈ merge_close_hunks (parse_patch_hunks (FileRecord.mk (some "@@ -2,2 +2,2 @@")
          (some "a\nb\nc\nd\ne") (some "a\nB\nC\nd\ne")).patch) 10, ∃ rs re : Nat,
        c.editable_region_start = some rs ∧
        c.editable_region_end = some re ∧
        (rs : Int) = max 1 ((hk.1 : Int) - (1 : Nat)) ∧
        (re : Int) = min ((pySplitLines ((FileRecord.mk (some "@@ -2,2 +2,2 @@")
          (some "a\nb\nc\nd\ne") (some "a\nB\nC\nd\ne")).before_content.getD "")).length : Int)
          ((hk.2 : Int) + (1 : Nat)) ∧
        1 ≤ rs ∧ re ≤ (pySplitLines ((FileRecord.mk (some "@@ -2,2 +2,2 @@")
          (some "a\nb\nc\nd\ne") (some "a\nB\nC\nd\ne")).before_content.getD "")).length) :=
  ⟨⟨by decide, by decide, by decide⟩,
    C3_region_bounds (FileRecord.mk (some "@@ -2,2 +2,2 @@") (some "a\nb\nc\nd\ne")
      (some "a\nB\nC\nd\ne")) 1 1 10 (by decide) (by decide) (by decide)⟩

/-- C4: on a record with truthy patch (parsing to at least one hunk),
truthy before-content and truthy after-content of `A` lines, a chunk's
`target_text` is present iff `region_start ≤ A` and `region_end ≤ A`,
and when present it is the after-lines `region_start ..= region_end`
(1-based, inclusive) joined with newlines; otherwise it is the distinct
absent state — never an exception, never a truncated slice. -/
theorem C4_target_text (r : FileRecord) (cb ca g : Nat)
    (hp : truthy r.patch = true) (hb : truthy r.before_content = true)
    (ha : truthy r.after_content = true)
    (hnz : parse_patch_hunks r.patch ≠ []) :
    ∀ c ∈ add_editable_region_markers r cb ca g,
      ∃ rs re : Nat,
        c.editable_region_start = some rs ∧
        c.editable_region_end = some re ∧
        (c.model_target_text ≠ none ↔
          rs ≤ (pySplitLines (r.after_content.getD "")).length ∧
          re ≤ (pySplitLines (r.after_content.getD "")).length) ∧
        (∀ t, c.model_target_text = some t →
          t = joinNl (pySlice (pySplitLines (r.after_content.getD "")) (rs - 1) re)) := by
  intro c hc
  rw [add_markers_main r cb ca g (shortCircuit_false r hp hb hnz), if_pos ha] at hc
  obtain ⟨hk, hmem, j, rfl⟩ := chunksFrom_mem _ _ cb ca _ _ 0 c hc
  obtain ⟨-, -, h3, h4, -, h6⟩ := buildChunk_fields _ _ cb ca j _ hk
  refine ⟨max 1 (hk.1 - cb),
    min (pySplitLines (r.before_content.getD "")).length (hk.2 + ca), h3, h4, ?_, ?_⟩
  · rw [h6]
    by_cases hcond : max 1 (hk.1 - cb) ≤ (pySplitLines (r.after_content.getD "")).length ∧
        min (pySplitLines (r.before_content.getD "")).length (hk.2 + ca) ≤
          (pySplitLines (r.after_content.getD "")).length
    · rw [if_pos hcond]
      exact ⟨fun _ => hcond, fun _ => by simp⟩
    · rw [if_neg hcond]
      exact ⟨fun hx => absurd rfl hx, fun hx => absurd hx hcond⟩
  · intro t ht
    rw [h6] at ht
    by_cases hcond : max 1 (hk.1 - cb) ≤ (pySplitLines (r.after_content.getD "")).length ∧
        min (pySplitLines (r.before_content.getD "")).length (hk.2 + ca) ≤
          (pySplitLines (r.after_content.getD "")).length
    · rw [if_pos hcond] at ht
      exact (Option.some.injEq _ _ ▸ ht).symm
    · rw [if_neg hcond] at ht
      exact absurd ht (by simp)

/-- Witness for C4: the spec's own example — 20 before-lines, 10
after-lines, a region reaching line 15 — yields an absent target. -/
theorem C4_target_witness :
    (truthy (some "@@ -12,3 +12,3 @@") = true ∧
      truthy (some "b1\nb2\nb3\nb4\nb5\nb6\nb7\nb8\nb9\nb10\nb11\nb12\nb13\nb14\nb15\nb16\nb17\nb18\nb19\nb20") = true ∧
      truthy (some "a1\na2\na3\na4\na5\na6\na7\na8\na9\na10") = true ∧
      parse_patch_hunks (some "@@ -12,3 +12,3 @@") ≠ []) ∧
    (add_editable_region_markers (FileRecord.mk (some "@@ -12,3 +12,3 @@")
        (some "b1\nb2\nb3\nb4\nb5\nb6\nb7\nb8\nb9\nb10\nb11\nb12\nb13\nb14\nb15\nb16\nb17\nb18\nb19\nb20")
        (some "a1\na2\na3\na4\na5\na6\na7\na8\na9\na10")) 1 0 10).map
      (fun c => (c.editable_region_start, c.editable_region_end, c.model_target_text)) =
      [(some 11, some 15, none)] ∧
    (∀ c ∈ add_editable_region_markers (FileRecord.mk (some "@@ -12,3 +12,3 @@")
        (some "b1\nb2\nb3\nb4\nb5\nb6\nb7\nb8\nb9\nb10\nb11\nb12\nb13\nb14\nb15\nb16\nb17\nb18\nb19\nb20")
        (some "a1\na2\na3\na4\na5\na6\na7\na8\na9\na10")) 1 0 10,
      ∃ rs re : Nat,
        c.editable_region_start = some rs ∧
        c.editable_region_end = some re ∧
        (c.model_target_text ≠ none ↔
          rs ≤ (pySplitLines ((FileRecord.mk (some "@@ -12,3 +12,3 @@")
            (some "b1\nb2\nb3\nb4\nb5\nb6\nb7\nb8\nb9\nb10\nb11\nb12\nb13\nb14\nb15\nb16\nb17\nb18\nb19\nb20")
            (some "a1\na2\na3\na4\na5\na6\na7\na8\na9\na10")).after_content.getD "")).length ∧
          re ≤ (pySplitLines ((FileRecord.mk (some "@@ -12,3 +12,3 @@")
            (some "b1\nb2\nb3\nb4\nb5\nb6\nb7\nb8\nb9\nb10\nb11\nb12\nb13\nb14\nb15\nb16\nb17\nb18\nb19\nb20")
            (some "a1\na2\na3\na4\na5\na6\na7\na8\na9\na10")).after_content.getD "")).length) ∧
        (∀ t, c.model_target_text = some t →
          t = joinNl (pySlice (pySplitLines ((FileRecord.mk (some "@@ -12,3 +12,3 @@")
            (some "b1\nb2\nb3\nb4\nb5\nb6\nb7\nb8\nb9\nb10\nb11\nb12\nb13\nb14\nb15\nb16\nb17\nb18\nb19\nb20")
            (some "a1\na2\na3\na4\na5\na6\na7\na8\na9\na10")).after_content.getD ""))
            (rs - 1) re))) :=
  ⟨⟨by decide, by decide, by decide, by decide⟩, by decide,
    C4_target_text (FileRecord.mk (some "@@ -12,3 +12,3 @@")
      (some "b1\nb2\nb3\nb4\nb5\nb6\nb7\nb8\nb9\nb10\nb11\nb12\nb13\nb14\nb15\nb16\nb17\nb18\nb19\nb20")
      (some "a1\na2\na3\na4\na5\na6\na7\na8\na9\na10")) 1 0 10
      (by decide) (by decide) (by decide) (by decide)⟩

/-- C5 as stated is false: a record whose after-content is absent but
whose patch and before-content are present is NOT short-circuited — the
code falls back to the before-lines and produces a chunk whose
`input_text` (and even `target_text`) is present, not absent. -/
theorem C5_after_absent_counterexample :
    add_editable_region_markers
        (FileRecord.mk (some "@@ -1,2 +1,2 @@") (some "a\nb\nc") none) 1 5 10 =
      [ChunkRecord.mk 0 1 false (some 1) (some 3)
        (some "<|editable_region_start|>\na\nb\nc\n<|editable_region_end|>")
        (some "a\nb\nc")] ∧
    (ChunkRecord.mk 0 1 false (some 1) (some 3)
        (some "<|editable_region_start|>\na\nb\nc\n<|editable_region_end|>")
        (some "a\nb\nc")).model_input_text ≠ none := by
  refine ⟨by decide, by decide⟩

/-- C5 amended: the chunker short-circuits exactly on an empty-or-absent
patch, an empty-or-absent before-content, or a patch parsing to zero
hunks (absent after-content does not short-circuit), and then emits
exactly one chunk with `chunk_index = 0`, `chunk_count = 1` and both
texts absent; otherwise it emits one chunk per merged region with
`chunk_index` assigned in region order and `chunk_count` the region
count; every record yields at least one chunk, and the chunker is a
total function (it never raises). -/
theorem C5_chunk_structure (r : FileRecord) (cb ca g : Nat) :
    (shortCircuit r = true →
      add_editable_region_markers r cb ca g = [degenChunk]) ∧
    (shortCircuit r = false →
      (add_editable_region_markers r cb ca g).length =
        (merge_close_hunks (parse_patch_hunks r.patch) g).length ∧
      (add_editable_region_markers r cb ca g).map (fun c => c.chunk_id) =
        List.range (merge_close_hunks (parse_patch_hunks r.patch) g).length ∧
      ∀ c ∈ add_editable_region_markers r cb ca g,
        c.total_chunks_in_file =
          (merge_close_hunks (parse_patch_hunks r.patch) g).length) ∧
    1 ≤ (add_editable_region_markers r cb ca g).length ∧
    degenChunk.chunk_id = 0 ∧ degenChunk.total_chunks_in_file = 1 ∧
    degenChunk.model_input_text = none ∧ degenChunk.model_target_text = none := by
  refine ⟨add_markers_degen r cb ca g, ?_, ?_, rfl, rfl, rfl, rfl⟩
  · intro hsf
    have hmain := add_markers_main r cb ca g hsf
    refine ⟨by rw [hmain]; exact chunksFrom_length _ _ cb ca _ _ 0, ?_, ?_⟩
    · rw [hmain, chunksFrom_map_id _ _ cb ca _ _ 0, List.range_eq_range']
    · intro c hc
      rw [hmain] at hc
      exact chunksFrom_total _ _ cb ca _ _ 0 c hc
  · by_cases hsc : shortCircuit r = true
    · rw [add_markers_degen r cb ca g hsc]
      exact Nat.le_refl _
    · have hsf : shortCircuit r = false := Bool.eq_false_iff.mpr hsc
      rw [add_markers_main r cb ca g hsf, chunksFrom_length _ _ cb ca _ _ 0]
      have hne := merge_ne_nil (parse_patch_hunks r.patch) g
        (shortCircuit_false_parts r hsf).2.2
      rcases hm : merge_close_hunks (parse_patch_hunks r.patch) g with - | ⟨a, t⟩
      · exact absurd hm hne
      · simp

/-- Witness for C5 on both paths: a record with absent patch
short-circuits to the degenerate chunk; a chunkable record gets
consecutive ids and the shared total. -/
theorem C5_structure_witness :
    (shortCircuit recNoPatch = true ∧
      add_editable_region_markers recNoPatch 1 5 10 = [degenChunk]) ∧
    (shortCircuit recTwoHunks = false ∧
      ((add_editable_region_markers recTwoHunks 1 5 10).length =
        (merge_close_hunks (parse_patch_hunks recTwoHunks.patch) 10).length ∧
      (add_editable_region_markers recTwoHunks 1 5 10).map (fun c => c.chunk_id) =
        List.range (merge_close_hunks (parse_patch_hunks recTwoHunks.patch) 10).length ∧
      ∀ c ∈ add_editable_region_markers recTwoHunks 1 5 10,
        c.total_chunks_in_file =
          (merge_close_hunks (parse_patch_hunks recTwoHunks.patch) 10).length)) :=
  ⟨⟨by decide, (C5_chunk_structure recNoPatch 1 5 10).1 (by decide)⟩,
    ⟨by decide, (C5_chunk_structure recTwoHunks 1 5 10).2.1 (by decide)⟩⟩

/-- C8 as stated is false: when `region_start` exceeds the number of
before-lines, the marker loop never reaches index `region_start` and the
start marker is not emitted at all (0 occurrences, not exactly 1). -/
theorem C8_marker_counterexample :
    (add_editable_region_markers recFarHunk 1 5 10).map
        (fun c => (c.editable_region_start, c.editable_region_end, c.model_input_text)) =
      [(some 9, some 3, some "a\nb\nc\n<|editable_region_end|>")] ∧
    countOcc startMarker.toList ("a\nb\nc\n<|editable_region_end|>").toList = 0 ∧
    countOcc endMarker.toList ("a\nb\nc\n<|editable_region_end|>").toList = 1 := by
  refine ⟨by decide, by decide, by decide⟩

/-- C8 amended: whenever `region_start ≤ region_end` (which in
particular holds whenever the start marker's position lies within the
file, since `region_end` is clamped to the line count), `input_text` is
the before-lines joined with newlines with the start marker inserted
immediately before line `region_start` and the end marker immediately
after line `region_end`; a marker whose position lies outside
`[1, lineCount]` is not emitted. -/
theorem C8_marker_insertion (r : FileRecord) (cb ca g : Nat)
    (hp : truthy r.patch = true) (hb : truthy r.before_content = true)
    (hnz : parse_patch_hunks r.patch ≠ []) :
    ∀ c ∈ add_editable_region_markers r cb ca g,
      ∃ rs re : Nat,
        c.editable_region_start = some rs ∧
        c.editable_region_end = some re ∧
        (rs ≤ re →
          c.model_input_text = some (joinNl
            ((pySplitLines (r.before_content.getD "")).take (rs - 1) ++ startMarker ::
              (((pySplitLines (r.before_content.getD "")).drop (rs - 1)).take (re + 1 - rs) ++
                endMarker :: (pySplitLines (r.before_content.getD "")).drop re)))) := by
  intro c hc
  rw [add_markers_main r cb ca g (shortCircuit_false r hp hb hnz)] at hc
  obtain ⟨hk, hmem, j, rfl⟩ := chunksFrom_mem _ _ cb ca _ _ 0 c hc
  obtain ⟨-, -, h3, h4, h5, -⟩ := buildChunk_fields _ _ cb ca j _ hk
  refine ⟨max 1 (hk.1 - cb),
    min (pySplitLines (r.before_content.getD "")).length (hk.2 + ca), h3, h4, ?_⟩
  intro hle
  rw [h5]
  rw [markLoop_both _ _ _ 1 (by omega) hle (by omega)]
  rw [show min (pySplitLines (r.before_content.getD "")).length (hk.2 + ca) + 1 - 1 =
    min (pySplitLines (r.before_content.getD "")).length (hk.2 + ca) from by omega]

/-- Witness for the amended C8 at a concrete record. -/
theorem C8_insertion_witness :
    (truthy recTwoHunks.patch = true ∧ truthy recTwoHunks.before_content = true ∧
      parse_patch_hunks recTwoHunks.patch ≠ []) ∧
    (∀ c ∈ add_editable_region_markers recTwoHunks 1 5 10,
      ∃ rs re : Nat,
        c.editable_region_start = some rs ∧
        c.editable_region_end = some re ∧
        (rs ≤ re →
          c.model_input_text = some (joinNl
            ((pySplitLines (recTwoHunks.before_content.getD "")).take (rs - 1) ++
              startMarker ::
              (((pySplitLines (recTwoHunks.before_content.getD "")).drop (rs - 1)).take
                  (re + 1 - rs) ++
                endMarker :: (pySplitLines (recTwoHunks.before_content.getD "")).drop re))))) :=
  ⟨⟨by decide, by decide, by decide⟩,
    C8_marker_insertion recTwoHunks 1 5 10 (by decide) (by decide) (by decide)⟩

end IBMCC
